import Mathlib

/-!
Verification of the Morse translator core of the repository
(backend `app/core/morse_translator.py`, quoted in full in the backend
walkthrough document, plus the result filtering in `app/api/routes.py`).

Strings are embedded as `List Char`.  Python dictionaries keyed by
strings/characters are embedded as association lists looked up with
`alookup`; insertion order matches the source and all keys are distinct,
so the first-match lookup agrees with Python's dict lookup.
-/

/-- First-match association-list lookup, embedding Python dict access. -/
def alookup {α β : Type} [DecidableEq α] : α → List (α × β) → Option β
  | _, [] => none
  | a, (k, v) :: rest => if a = k then some v else alookup a rest

/-- The characters Python's `str.strip()` removes (ASCII whitespace). -/
def isPyWs (c : Char) : Bool :=
  c = ' ' || c = '\t' || c = '\n' || c = '\r' || c = '\x0b' || c = '\x0c'

/-- Embedding of Python's `str.strip()`: drop leading and trailing whitespace. -/
def pyStrip (l : List Char) : List Char :=
  ((l.dropWhile isPyWs).reverse.dropWhile isPyWs).reverse

/-- The ASCII lower/upper case pairs; `str.upper()` on the repository's
alphabet maps a lowercase letter to its uppercase partner and leaves every
other character unchanged. -/
def lowerUpperTable : List (Char × Char) :=
  [('a', 'A'), ('b', 'B'), ('c', 'C'), ('d', 'D'), ('e', 'E'), ('f', 'F'),
   ('g', 'G'), ('h', 'H'), ('i', 'I'), ('j', 'J'), ('k', 'K'), ('l', 'L'),
   ('m', 'M'), ('n', 'N'), ('o', 'O'), ('p', 'P'), ('q', 'Q'), ('r', 'R'),
   ('s', 'S'), ('t', 'T'), ('u', 'U'), ('v', 'V'), ('w', 'W'), ('x', 'X'),
   ('y', 'Y'), ('z', 'Z')]

/-- Embedding of Python's `str.upper()` on one character. -/
def upperChar (c : Char) : Char := (alookup c lowerUpperTable).getD c

/-- `MorseTranslator.MORSE_CODE_DICT`: the forward table of the source,
in source order — the 26 letters, the 10 digits, and the space. -/
def MORSE_CODE_DICT : List (Char × List Char) :=
  [('A', ".-".data),    ('B', "-...".data),  ('C', "-.-.".data),
   ('D', "-..".data),   ('E', ".".data),     ('F', "..-.".data),
   ('G', "--.".data),   ('H', "....".data),  ('I', "..".data),
   ('J', ".---".data),  ('K', "-.-".data),   ('L', ".-..".data),
   ('M', "--".data),    ('N', "-.".data),    ('O', "---".data),
   ('P', ".--.".data),  ('Q', "--.-".data),  ('R', ".-.".data),
   ('S', "...".data),   ('T', "-".data),     ('U', "..-".data),
   ('V', "...-".data),  ('W', ".--".data),   ('X', "-..-".data),
   ('Y', "-.--".data),  ('Z', "--..".data),  ('1', ".----".data),
   ('2', "..---".data), ('3', "...--".data), ('4', "....-".data),
   ('5', ".....".data), ('6', "-....".data), ('7', "--...".data),
   ('8', "---..".data), ('9', "----.".data), ('0', "-----".data),
   (' ', "/".data)]

/-- `MorseTranslator.REVERSE_MORSE_DICT`, built by the source as the dict
comprehension swapping each entry of `MORSE_CODE_DICT`; all patterns are
distinct so no entry overwrites another. -/
def REVERSE_MORSE_DICT : List (List Char × Char) :=
  MORSE_CODE_DICT.map (fun e => (e.2, e.1))

/-- `' '.join`: join the given chunks with a single space between them. -/
def joinSep : List (List Char) → List Char
  | [] => []
  | [u] => u
  | u :: v :: us => u ++ ' ' :: joinSep (v :: us)

/-- `MorseTranslator.english_to_morse`: uppercase and strip the input, map
each supported character to its pattern (silently dropping the rest), and
join the patterns with single spaces. -/
def english_to_morse (s : List Char) : List Char :=
  if s = [] then []
  else joinSep ((pyStrip (s.map upperChar)).filterMap
    (fun c => alookup c MORSE_CODE_DICT))

/-- Python's `str.split(' ')` (single-space separator, keeping empty chunks). -/
def splitSp : List Char → List (List Char)
  | [] => [[]]
  | c :: rest =>
    if c = ' ' then [] :: splitSp rest
    else
      match splitSp rest with
      | t :: ts => (c :: t) :: ts
      | [] => [[c]]

/-- The token list the decoder builds for delimited input: split on spaces
and drop the empty tokens. -/
def unitsOf (t : List Char) : List (List Char) :=
  (splitSp t).filter (fun u => !u.isEmpty)

/-- All ways to cut a list into a non-empty front part and the rest,
shortest front first: the end positions the decoder's loops try. -/
def splits {α : Type} : List α → List (List α × List α)
  | [] => []
  | c :: cs => ([c], cs) :: (splits cs).map (fun pr => (c :: pr.1, pr.2))

/-- `MorseTranslator._find_all_translations` (delimited decoding), with the
recursion depth made explicit as fuel; the source recursion advances the
index past at least one unit per call, so `fuel = number of units` suffices.
At each position the source tries every end index, joining the units in
between with spaces before the reverse lookup. -/
def fatF : Nat → List (List Char) → List (List Char)
  | _, [] => [[]]
  | 0, _ :: _ => []
  | Nat.succ n, u :: us =>
    ((splits (u :: us)).map (fun pr =>
      match alookup (joinSep pr.1) REVERSE_MORSE_DICT with
      | some ch => (fatF n pr.2).map (fun r => ch :: r)
      | none => [])).flatten

/-- `MorseTranslator._find_all_translations` started at index 0. -/
def find_all_translations (us : List (List Char)) : List (List Char) :=
  fatF us.length us

/-- Modelled from the spec: `MorseTranslator._find_ambiguous_translations`
is called by `morse_to_english` but its body is absent from the sources,
so it is modelled from spec section 4.3 Regime B: at each position try
every longer end position (shortest first), keep the branch when the
substring is a registered pattern, recurse on the remainder and prepend
the resolved symbol to each result of the recursive call; exhausting the
input yields the single empty continuation.  (Bounding the end position
by the maximum pattern length, as the spec also allows, never changes the
result since longer substrings are not registered patterns.)  The
recursion depth is made explicit as fuel; `fuel = length of the input`
suffices since every step consumes at least one character. -/
def famF : Nat → List Char → List (List Char)
  | _, [] => [[]]
  | 0, _ :: _ => []
  | Nat.succ n, c :: cs =>
    ((splits (c :: cs)).map (fun pr =>
      match alookup pr.1 REVERSE_MORSE_DICT with
      | some ch => (famF n pr.2).map (fun r => ch :: r)
      | none => [])).flatten

/-- Modelled from the spec: `_find_ambiguous_translations` started at
index 0 (see `famF`). -/
def find_ambiguous_translations (cs : List Char) : List (List Char) :=
  famF cs.length cs

/-- `MorseTranslator.morse_to_english`: empty or whitespace-only input
decodes to the singleton empty string; input whose stripped form contains
a space is decoded as delimited tokens; otherwise the stripped form is
decoded as an ambiguous unspaced sequence. -/
def morse_to_english (s : List Char) : List (List Char) :=
  if s = [] then [[]]
  else
    let t := pyStrip s
    if t = [] then [[]]
    else if ' ' ∈ t then find_all_translations (unitsOf t)
    else find_ambiguous_translations t

/-- `MorseTranslator.validate_morse_code`: the empty string is valid,
otherwise every character must be a dot, dash, space or slash. -/
def validate_morse_code (s : List Char) : Bool :=
  if s = [] then true
  else s.all (fun c => c = '.' || c = '-' || c = ' ' || c = '/')

/-- The result filtering of `translate_morse_to_english` in
`app/api/routes.py`: walk the decode results in order, keeping a result
when it is non-empty and not seen before. -/
def filteredResultsAux : List (List Char) → List (List Char) → List (List Char)
  | _, [] => []
  | seen, r :: rest =>
    if !r.isEmpty && !(seen.contains r) then r :: filteredResultsAux (r :: seen) rest
    else filteredResultsAux seen rest

/-- The de-duplicated, empty-free result list the route returns. -/
def filtered_results (rs : List (List Char)) : List (List Char) :=
  filteredResultsAux [] rs

/-- The symbol a registered pattern resolves to. -/
def patChar (p : List Char) : Char := (alookup p REVERSE_MORSE_DICT).getD ' '

/-- A segmentation of an unspaced sequence: consecutive non-empty
substrings, each a registered pattern, concatenating to the sequence. -/
def IsSegmentation (parts : List (List Char)) (cs : List Char) : Prop :=
  parts.flatten = cs ∧
    ∀ p ∈ parts, p ≠ [] ∧ (alookup p REVERSE_MORSE_DICT).isSome = true

/-- Whether a string contains two adjacent spaces. -/
def twoAdjSpaces : List Char → Bool
  | [] => false
  | [_] => false
  | a :: b :: rest => (a == ' ' && b == ' ') || twoAdjSpaces (b :: rest)

/-- Trimming leading and trailing spaces (the claim-side notion of a
trimmed Morse string). -/
def trimSpaces (l : List Char) : List Char :=
  ((l.dropWhile (fun c => c = ' ')).reverse.dropWhile (fun c => c = ' ')).reverse

/-- The pattern of a supported symbol. -/
def fwdPat (c : Char) : List Char := (alookup c MORSE_CODE_DICT).getD []


set_option maxRecDepth 40000

/-! ### Association-list lemmas -/

theorem alookup_mem {α β : Type} [DecidableEq α] {k : α} {v : β} :
    ∀ {l : List (α × β)}, alookup k l = some v → (k, v) ∈ l := by
  intro l
  induction l with
  | nil => intro h; simp [alookup] at h
  | cons e rest ih =>
    intro h
    obtain ⟨k0, v0⟩ := e
    by_cases hk : k = k0
    · subst hk
      simp [alookup] at h
      subst h
      exact List.mem_cons_self _ _
    · simp [alookup, hk] at h
      exact List.mem_cons_of_mem _ (ih h)

theorem mem_alookup {α β : Type} [DecidableEq α] {k : α} {v : β} :
    ∀ {l : List (α × β)}, (l.map Prod.fst).Nodup → (k, v) ∈ l →
      alookup k l = some v := by
  intro l
  induction l with
  | nil => intro _ h; simp at h
  | cons e rest ih =>
    intro hnd h
    obtain ⟨k0, v0⟩ := e
    simp only [List.map_cons, List.nodup_cons] at hnd
    rcases List.mem_cons.mp h with h1 | h1
    · rw [Prod.ext_iff] at h1
      obtain ⟨hk, hv⟩ := h1
      simp at hk hv
      subst hk; subst hv
      simp [alookup]
    · by_cases hk : k = k0
      · subst hk
        exact absurd (List.mem_map.mpr ⟨(k, v), h1, rfl⟩) hnd.1
      · simp only [alookup, if_neg hk]
        exact ih hnd.2 h1

theorem alookup_unique {α β : Type} [DecidableEq α] {k : α} {v1 v2 : β}
    {l : List (α × β)} (hnd : (l.map Prod.fst).Nodup)
    (h1 : (k, v1) ∈ l) (h2 : (k, v2) ∈ l) : v1 = v2 := by
  have e1 := mem_alookup hnd h1
  have e2 := mem_alookup hnd h2
  rw [e1] at e2
  exact Option.some_inj.mp e2

/-! ### Facts about the code table, by computation -/

theorem fwd_keys_nodup : (MORSE_CODE_DICT.map Prod.fst).Nodup := by decide

theorem rev_keys_nodup : (REVERSE_MORSE_DICT.map Prod.fst).Nodup := by decide

theorem fwd_entries_props : ∀ e ∈ MORSE_CODE_DICT,
    e.2 ≠ [] ∧ ' ' ∉ e.2 ∧ ∀ c ∈ e.2, isPyWs c = false := by decide

theorem rev_entries_props : ∀ e ∈ REVERSE_MORSE_DICT,
    e.1 ≠ [] ∧ ' ' ∉ e.1 := by decide

/-- Membership in the reverse table from membership in the forward table. -/
theorem rev_mem_of_fwd_mem {c : Char} {p : List Char}
    (h : (c, p) ∈ MORSE_CODE_DICT) : (p, c) ∈ REVERSE_MORSE_DICT :=
  List.mem_map.mpr ⟨(c, p), h, rfl⟩

theorem fwd_mem_of_rev_mem {c : Char} {p : List Char}
    (h : (p, c) ∈ REVERSE_MORSE_DICT) : (c, p) ∈ MORSE_CODE_DICT := by
  rcases List.mem_map.mp h with ⟨e, he, hev⟩
  obtain ⟨ec, ep⟩ := e
  rw [Prod.ext_iff] at hev
  obtain ⟨h1, h2⟩ := hev
  simp at h1 h2
  subst h1; subst h2
  exact he

/-- Round trip: the reverse lookup inverts a successful forward lookup. -/
theorem rev_of_fwd {c : Char} {p : List Char}
    (h : alookup c MORSE_CODE_DICT = some p) :
    alookup p REVERSE_MORSE_DICT = some c :=
  mem_alookup rev_keys_nodup (rev_mem_of_fwd_mem (alookup_mem h))

/-- The reverse lookup is injective: a symbol determines its pattern. -/
theorem rev_inj {p q : List Char} {c : Char}
    (hp : alookup p REVERSE_MORSE_DICT = some c)
    (hq : alookup q REVERSE_MORSE_DICT = some c) : p = q := by
  have h1 := fwd_mem_of_rev_mem (alookup_mem hp)
  have h2 := fwd_mem_of_rev_mem (alookup_mem hq)
  exact alookup_unique fwd_keys_nodup h1 h2

/-- No registered pattern contains a space. -/
theorem rev_no_space {p : List Char} {c : Char}
    (h : alookup p REVERSE_MORSE_DICT = some c) : ' ' ∉ p :=
  (rev_entries_props _ (alookup_mem h)).2

/-- Registered patterns are non-empty. -/
theorem rev_ne_nil {p : List Char} {c : Char}
    (h : alookup p REVERSE_MORSE_DICT = some c) : p ≠ [] :=
  (rev_entries_props _ (alookup_mem h)).1

/-! ### `splits` lemmas -/

theorem mem_splits {α : Type} :
    ∀ {cs : List α} {p r : List α},
      (p, r) ∈ splits cs ↔ p ≠ [] ∧ p ++ r = cs := by
  intro cs
  induction cs with
  | nil =>
    intro p r
    simp only [splits, List.not_mem_nil, false_iff, not_and]
    intro h1 h2
    cases p with
    | nil => exact h1 rfl
    | cons a b => simp at h2
  | cons c cs ih =>
    intro p r
    constructor
    · intro h
      rcases List.mem_cons.mp h with h1 | h1
      · rw [Prod.ext_iff] at h1
        obtain ⟨hp, hr⟩ := h1
        simp at hp hr
        subst hp; subst hr
        exact ⟨by simp, rfl⟩
      · rcases List.mem_map.mp h1 with ⟨pr, hpr, he⟩
        obtain ⟨p1, p2⟩ := pr
        rw [Prod.ext_iff] at he
        obtain ⟨hp, hr⟩ := he
        simp at hp hr
        obtain ⟨hne, happ⟩ := ih.mp hpr
        subst hp; subst hr
        exact ⟨by simp, by simp [happ]⟩
    · rintro ⟨h1, h2⟩
      cases p with
      | nil => exact absurd rfl h1
      | cons a p1 =>
        simp only [List.cons_append, List.cons.injEq] at h2
        obtain ⟨ha, h2⟩ := h2
        subst ha
        cases p1 with
        | nil =>
          simp only [List.nil_append] at h2
          subst h2
          exact List.mem_cons_self _ _
        | cons b p2 =>
          refine List.mem_cons_of_mem _ (List.mem_map.mpr ⟨(b :: p2, r), ?_, rfl⟩)
          exact ih.mpr ⟨by simp, h2⟩

theorem splits_len {α : Type} {cs : List α} {p r : List α}
    (h : (p, r) ∈ splits cs) : r.length < cs.length := by
  obtain ⟨h1, h2⟩ := mem_splits.mp h
  subst h2
  cases p with
  | nil => exact absurd rfl h1
  | cons a b => simp; omega

/-! ### Fuel irrelevance and unfolding for the two decoders -/

theorem famF_nil : ∀ n, famF n [] = [[]] := by
  intro n; cases n <;> rfl

theorem fatF_nil : ∀ n, fatF n [] = [[]] := by
  intro n; cases n <;> rfl

theorem famF_fuel : ∀ n m (cs : List Char), cs.length ≤ n → cs.length ≤ m →
    famF n cs = famF m cs := by
  intro n
  induction n with
  | zero =>
    intro m cs h1 _
    have : cs = [] := List.length_eq_zero.mp (Nat.le_zero.mp h1)
    subst this
    rw [famF_nil, famF_nil]
  | succ n ih =>
    intro m cs h1 h2
    cases cs with
    | nil => rw [famF_nil, famF_nil]
    | cons c cs =>
      cases m with
      | zero => simp at h2
      | succ m =>
        simp only [famF]
        congr 1
        apply List.map_congr_left
        intro pr hpr
        obtain ⟨p1, p2⟩ := pr
        dsimp only
        have hlt : p2.length < (c :: cs).length := splits_len hpr
        simp only [List.length_cons] at hlt h1 h2
        have hn : p2.length ≤ n := by omega
        have hm : p2.length ≤ m := by omega
        rw [ih m p2 hn hm]

theorem fatF_fuel : ∀ n m (us : List (List Char)), us.length ≤ n →
    us.length ≤ m → fatF n us = fatF m us := by
  intro n
  induction n with
  | zero =>
    intro m us h1 _
    have : us = [] := List.length_eq_zero.mp (Nat.le_zero.mp h1)
    subst this
    rw [fatF_nil, fatF_nil]
  | succ n ih =>
    intro m us h1 h2
    cases us with
    | nil => rw [fatF_nil, fatF_nil]
    | cons u us =>
      cases m with
      | zero => simp at h2
      | succ m =>
        simp only [fatF]
        congr 1
        apply List.map_congr_left
        intro pr hpr
        obtain ⟨p1, p2⟩ := pr
        dsimp only
        have hlt : p2.length < (u :: us).length := splits_len hpr
        simp only [List.length_cons] at hlt h1 h2
        have hn : p2.length ≤ n := by omega
        have hm : p2.length ≤ m := by omega
        rw [ih m p2 hn hm]

theorem fam_nil : find_ambiguous_translations [] = [[]] := rfl

theorem fam_cons (c : Char) (cs : List Char) :
    find_ambiguous_translations (c :: cs) =
      ((splits (c :: cs)).map (fun pr =>
        match alookup pr.1 REVERSE_MORSE_DICT with
        | some ch => (find_ambiguous_translations pr.2).map (fun r => ch :: r)
        | none => [])).flatten := by
  have h0 : find_ambiguous_translations (c :: cs) = famF (cs.length + 1) (c :: cs) := rfl
  rw [h0]
  simp only [famF]
  congr 1
  apply List.map_congr_left
  intro pr hpr
  obtain ⟨p1, p2⟩ := pr
  dsimp only
  have hlt : p2.length < (c :: cs).length := splits_len hpr
  simp only [List.length_cons] at hlt
  have h1 : p2.length ≤ cs.length := by omega
  rw [show famF cs.length p2 = find_ambiguous_translations p2 from
    famF_fuel cs.length p2.length p2 h1 le_rfl]

theorem fat_nil : find_all_translations [] = [[]] := rfl

theorem fat_cons_raw (u : List Char) (us : List (List Char)) :
    find_all_translations (u :: us) =
      ((splits (u :: us)).map (fun pr =>
        match alookup (joinSep pr.1) REVERSE_MORSE_DICT with
        | some ch => (find_all_translations pr.2).map (fun r => ch :: r)
        | none => [])).flatten := by
  have h0 : find_all_translations (u :: us) = fatF (us.length + 1) (u :: us) := rfl
  rw [h0]
  simp only [fatF]
  congr 1
  apply List.map_congr_left
  intro pr hpr
  obtain ⟨p1, p2⟩ := pr
  dsimp only
  have hlt : p2.length < (u :: us).length := splits_len hpr
  simp only [List.length_cons] at hlt
  have h1 : p2.length ≤ us.length := by omega
  rw [show fatF us.length p2 = find_all_translations p2 from
    fatF_fuel us.length p2.length p2 h1 le_rfl]

/-! ### `joinSep` lemmas -/

theorem joinSep_single (u : List Char) : joinSep [u] = u := rfl

theorem joinSep_cons2 (u v : List Char) (us : List (List Char)) :
    joinSep (u :: v :: us) = u ++ ' ' :: joinSep (v :: us) := rfl

theorem space_mem_joinSep (u v : List Char) (us : List (List Char)) :
    ' ' ∈ joinSep (u :: v :: us) := by
  rw [joinSep_cons2]
  exact List.mem_append_right _ (List.mem_cons_self _ _)

/-- In the delimited decoder, a candidate made of two or more units never
matches a registered pattern, so only single-unit matches contribute. -/
theorem fat_cons (u : List Char) (us : List (List Char)) :
    find_all_translations (u :: us) =
      match alookup u REVERSE_MORSE_DICT with
      | some ch => (find_all_translations us).map (fun r => ch :: r)
      | none => [] := by
  rw [fat_cons_raw]
  simp only [splits]
  rw [List.map_cons, List.flatten_cons]
  have hrest : (((splits us).map (fun pr => ((u :: pr.1 : List (List Char)), pr.2))).map
      (fun pr => match alookup (joinSep pr.1) REVERSE_MORSE_DICT with
        | some ch => (find_all_translations pr.2).map (fun r => ch :: r)
        | none => ([] : List (List Char)))).flatten = [] := by
    rw [List.flatten_eq_nil_iff]
    intro l hl
    rcases List.mem_map.mp hl with ⟨pr, hpr, he⟩
    rcases List.mem_map.mp hpr with ⟨pr0, hpr0, he0⟩
    obtain ⟨p1, p2⟩ := pr0
    have hne : p1 ≠ [] := (mem_splits.mp hpr0).1
    subst he0
    have hsp : ' ' ∈ joinSep (u :: p1) := by
      cases p1 with
      | nil => exact absurd rfl hne
      | cons a b => exact space_mem_joinSep _ _ _
    have hnone : alookup (joinSep (u :: p1)) REVERSE_MORSE_DICT = none := by
      cases hh : alookup (joinSep (u :: p1)) REVERSE_MORSE_DICT with
      | none => rfl
      | some ch => exact absurd hsp (rev_no_space hh)
    rw [← he]
    simp only [hnone]
  rw [hrest, List.append_nil, joinSep_single]

/-! ### Characterizing the delimited decoder -/

/-- The delimited decoder is a fold: one result when every unit resolves,
no result otherwise. -/
theorem fat_fold : ∀ us : List (List Char),
    find_all_translations us =
      if us.all (fun u => (alookup u REVERSE_MORSE_DICT).isSome) then
        [us.map patChar]
      else [] := by
  intro us
  induction us with
  | nil => simp [fat_nil]
  | cons u us ih =>
    rw [fat_cons]
    cases hh : alookup u REVERSE_MORSE_DICT with
    | none => simp [List.all_cons, hh]
    | some ch =>
      rw [ih]
      by_cases hall : us.all (fun u => (alookup u REVERSE_MORSE_DICT).isSome)
      · rw [if_pos hall]
        have : (u :: us).all (fun u => (alookup u REVERSE_MORSE_DICT).isSome) := by
          simp [List.all_cons, hh, hall]
        rw [if_pos this]
        simp [patChar, hh]
      · rw [if_neg hall]
        have : ¬ (u :: us).all (fun u => (alookup u REVERSE_MORSE_DICT).isSome) := by
          simp [List.all_cons, hh]
          simpa using hall
        rw [if_neg this]
        simp

theorem fat_length_le (us : List (List Char)) :
    (find_all_translations us).length ≤ 1 := by
  rw [fat_fold]
  by_cases h : us.all (fun u => (alookup u REVERSE_MORSE_DICT).isSome) <;>
    simp [h]

/-! ### Unfolding `morse_to_english` -/

theorem mtoe_nil : morse_to_english [] = [[]] := rfl

theorem mtoe_strip_nil (s : List Char) (h : pyStrip s = []) :
    morse_to_english s = [[]] := by
  by_cases hs : s = []
  · subst hs; rfl
  · simp only [morse_to_english, if_neg hs, h]
    simp

theorem mtoe_delim (s : List Char) (h : ' ' ∈ pyStrip s) :
    morse_to_english s = find_all_translations (unitsOf (pyStrip s)) := by
  have hs : s ≠ [] := by
    intro he; subst he; simp [pyStrip] at h
  have ht : pyStrip s ≠ [] := by
    intro he; rw [he] at h; simp at h
  simp only [morse_to_english, if_neg hs, if_neg ht, if_pos h]

theorem mtoe_ambig (s : List Char) (hne : pyStrip s ≠ [])
    (h : ' ' ∉ pyStrip s) :
    morse_to_english s = find_ambiguous_translations (pyStrip s) := by
  have hs : s ≠ [] := by
    intro he; subst he; exact hne (by simp [pyStrip])
  simp only [morse_to_english, if_neg hs, if_neg hne, if_neg h]

/-! ### Characterizing the ambiguous decoder -/

/-- Membership in the ambiguous decoder's results is exactly having a
segmentation into registered patterns. -/
theorem mem_fam : ∀ (cs : List Char) (r : List Char),
    r ∈ find_ambiguous_translations cs ↔
      ∃ parts, IsSegmentation parts cs ∧ r = parts.map patChar := by
  suffices H : ∀ n (cs : List Char), cs.length ≤ n → ∀ r,
      (r ∈ find_ambiguous_translations cs ↔
        ∃ parts, IsSegmentation parts cs ∧ r = parts.map patChar) from
    fun cs r => H cs.length cs le_rfl r
  intro n
  induction n with
  | zero =>
    intro cs h1 r
    have : cs = [] := List.length_eq_zero.mp (Nat.le_zero.mp h1)
    subst this
    rw [fam_nil]
    constructor
    · intro h
      simp at h
      exact ⟨[], ⟨rfl, by simp⟩, by simp [h]⟩
    · rintro ⟨parts, ⟨hj, hp⟩, hr⟩
      cases parts with
      | nil => simp at hr; simp [hr]
      | cons p parts =>
        have : p ≠ [] := (hp p (List.mem_cons_self _ _)).1
        cases p with
        | nil => exact absurd rfl this
        | cons a b => simp at hj
  | succ n ih =>
    intro cs h1 r
    cases cs with
    | nil =>
      rw [fam_nil]
      constructor
      · intro h
        simp at h
        exact ⟨[], ⟨rfl, by simp⟩, by simp [h]⟩
      · rintro ⟨parts, ⟨hj, hp⟩, hr⟩
        cases parts with
        | nil => simp at hr; simp [hr]
        | cons p parts =>
          have : p ≠ [] := (hp p (List.mem_cons_self _ _)).1
          cases p with
          | nil => exact absurd rfl this
          | cons a b => simp at hj
    | cons c cs =>
      rw [fam_cons]
      constructor
      · intro h
        rcases List.mem_flatten.mp h with ⟨l, hl, hrl⟩
        rcases List.mem_map.mp hl with ⟨pr, hpr, he⟩
        obtain ⟨p1, p2⟩ := pr
        obtain ⟨hne, happ⟩ := mem_splits.mp hpr
        subst he
        dsimp only at hrl
        cases hh : alookup p1 REVERSE_MORSE_DICT with
        | none => rw [hh] at hrl; simp at hrl
        | some ch =>
          rw [hh] at hrl
          rcases List.mem_map.mp hrl with ⟨r1, hr1, hre⟩
          have hlen : p2.length ≤ n := by
            have : p1.length + p2.length = cs.length + 1 := by
              rw [← List.length_append, happ]; simp
            have hp1 : 1 ≤ p1.length := by
              cases p1 with
              | nil => exact absurd rfl hne
              | cons a b => simp
            simp only [List.length_cons] at h1
            omega
          rcases (ih p2 hlen r1).mp hr1 with ⟨parts, ⟨hj, hp⟩, hrr⟩
          refine ⟨p1 :: parts, ⟨?_, ?_⟩, ?_⟩
          · simp [hj, happ]
          · intro p hmem
            rcases List.mem_cons.mp hmem with h' | h'
            · subst h'; exact ⟨hne, by simp [hh]⟩
            · exact hp p h'
          · rw [← hre, hrr]
            simp [patChar, hh]
      · rintro ⟨parts, ⟨hj, hp⟩, hr⟩
        cases parts with
        | nil => simp at hj
        | cons p parts =>
          have hpne : p ≠ [] := (hp p (List.mem_cons_self _ _)).1
          have hps : (alookup p REVERSE_MORSE_DICT).isSome = true :=
            (hp p (List.mem_cons_self _ _)).2
          rcases Option.isSome_iff_exists.mp hps with ⟨ch, hh⟩
          simp only [List.flatten_cons] at hj
          have hsplit : (p, parts.flatten) ∈ splits (c :: cs) :=
            mem_splits.mpr ⟨hpne, by simpa using hj⟩
          apply List.mem_flatten.mpr
          refine ⟨(find_ambiguous_translations parts.flatten).map (fun r => ch :: r), ?_, ?_⟩
          · apply List.mem_map.mpr
            refine ⟨(p, parts.flatten), hsplit, ?_⟩
            dsimp only
            rw [hh]
          · have hlen : parts.flatten.length ≤ n := by
              have : p.length + parts.flatten.length = cs.length + 1 := by
                rw [← List.length_append, hj]; simp
              have hp1 : 1 ≤ p.length := by
                cases p with
                | nil => exact absurd rfl hpne
                | cons a b => simp
              simp only [List.length_cons] at h1
              omega
            apply List.mem_map.mpr
            refine ⟨parts.map patChar, ?_, ?_⟩
            · exact (ih parts.flatten hlen _).mpr ⟨parts, ⟨rfl, fun q hq =>
                hp q (List.mem_cons_of_mem _ hq)⟩, rfl⟩
            · rw [hr]
              simp [patChar, hh]

/-! ### The decoders produce no duplicates -/

theorem splits_pairwise_len {α : Type} : ∀ cs : List α,
    (splits cs).Pairwise (fun a b => a.1.length < b.1.length) := by
  intro cs
  induction cs with
  | nil => simp [splits]
  | cons c cs ih =>
    simp only [splits]
    apply List.Pairwise.cons
    · intro b hb
      rcases List.mem_map.mp hb with ⟨pr, hpr, he⟩
      obtain ⟨p1, p2⟩ := pr
      have hne : p1 ≠ [] := (mem_splits.mp hpr).1
      subst he
      cases p1 with
      | nil => exact absurd rfl hne
      | cons a b' => simp
    · rw [List.pairwise_map]
      apply ih.imp
      intro a b hab
      simpa using Nat.succ_lt_succ hab

theorem fam_nodup : ∀ cs : List Char, (find_ambiguous_translations cs).Nodup := by
  suffices H : ∀ n (cs : List Char), cs.length ≤ n →
      (find_ambiguous_translations cs).Nodup from
    fun cs => H cs.length cs le_rfl
  intro n
  induction n with
  | zero =>
    intro cs h1
    have : cs = [] := List.length_eq_zero.mp (Nat.le_zero.mp h1)
    subst this
    rw [fam_nil]
    simp
  | succ n ih =>
    intro cs h1
    cases cs with
    | nil => rw [fam_nil]; simp
    | cons c cs =>
      rw [fam_cons]
      rw [List.nodup_flatten]
      constructor
      · intro l hl
        rcases List.mem_map.mp hl with ⟨pr, hpr, he⟩
        obtain ⟨p1, p2⟩ := pr
        subst he
        dsimp only
        cases hh : alookup p1 REVERSE_MORSE_DICT with
        | none => simp
        | some ch =>
          have hlen : p2.length ≤ n := by
            have := splits_len hpr
            simp only [List.length_cons] at this h1
            omega
          exact (ih p2 hlen).map (fun a b hab => by
            simpa using hab)
      · rw [List.pairwise_map]
        apply (splits_pairwise_len (c :: cs)).imp
        intro a b hab
        intro x hxa hxb
        obtain ⟨a1, a2⟩ := a
        obtain ⟨b1, b2⟩ := b
        dsimp only at hxa hxb hab
        cases ha : alookup a1 REVERSE_MORSE_DICT with
        | none => rw [ha] at hxa; simp at hxa
        | some ch1 =>
          rw [ha] at hxa
          cases hb : alookup b1 REVERSE_MORSE_DICT with
          | none => rw [hb] at hxb; simp at hxb
          | some ch2 =>
            rw [hb] at hxb
            rcases List.mem_map.mp hxa with ⟨r1, _, he1⟩
            rcases List.mem_map.mp hxb with ⟨r2, _, he2⟩
            rw [← he2] at he1
            have hch : ch1 = ch2 := (List.cons.injEq .. ▸ he1).1
            subst hch
            have : a1 = b1 := rev_inj ha hb
            rw [this] at hab
            exact absurd hab (lt_irrefl _)

/-- Every collection `morse_to_english` returns is duplicate-free. -/
theorem mtoe_nodup (s : List Char) : (morse_to_english s).Nodup := by
  by_cases h1 : pyStrip s = []
  · rw [mtoe_strip_nil s h1]; simp
  · by_cases h2 : ' ' ∈ pyStrip s
    · rw [mtoe_delim s h2, fat_fold]
      by_cases h : (unitsOf (pyStrip s)).all
          (fun u => (alookup u REVERSE_MORSE_DICT).isSome) <;> simp [h]
    · rw [mtoe_ambig s h1 h2]
      exact fam_nodup _

/-! ### The route-level result filter -/

theorem filteredResultsAux_sublist : ∀ (rs seen : List (List Char)),
    (filteredResultsAux seen rs).Sublist rs := by
  intro rs
  induction rs with
  | nil => intro seen; simp [filteredResultsAux]
  | cons r rest ih =>
    intro seen
    simp only [filteredResultsAux]
    by_cases h : !r.isEmpty && !(seen.contains r)
    · rw [if_pos h]
      exact List.Sublist.cons₂ r (ih (r :: seen))
    · rw [if_neg h]
      exact List.Sublist.cons r (ih seen)

theorem filteredResultsAux_mem : ∀ (rs seen : List (List Char)) (r : List Char),
    r ∈ filteredResultsAux seen rs ↔ r ∈ rs ∧ r ≠ [] ∧ r ∉ seen := by
  intro rs
  induction rs with
  | nil => intro seen r; simp [filteredResultsAux]
  | cons r0 rest ih =>
    intro seen r
    simp only [filteredResultsAux]
    by_cases h : !r0.isEmpty && !(seen.contains r0)
    · rw [if_pos h]
      simp only [Bool.and_eq_true, Bool.not_eq_true'] at h
      have h0ne : r0 ≠ [] := by
        intro he; rw [he] at h; simp at h
      have h0ns : r0 ∉ seen := by
        intro hmem
        have := h.2
        rw [Bool.eq_false_iff] at this
        exact this (List.elem_iff.mpr hmem)
      constructor
      · intro hmem
        rcases List.mem_cons.mp hmem with he | hmem'
        · subst he
          exact ⟨List.mem_cons_self _ _, h0ne, h0ns⟩
        · have := (ih (r0 :: seen) r).mp hmem'
          refine ⟨List.mem_cons_of_mem _ this.1, this.2.1, ?_⟩
          intro hs
          exact this.2.2 (List.mem_cons_of_mem _ hs)
      · rintro ⟨hmem, hne, hns⟩
        rcases List.mem_cons.mp hmem with he | hmem'
        · subst he
          exact List.mem_cons_self _ _
        · by_cases hr0 : r = r0
          · subst hr0
            exact List.mem_cons_self _ _
          · exact List.mem_cons_of_mem _ ((ih (r0 :: seen) r).mpr
              ⟨hmem', hne, by simp [hr0, hns]⟩)
    · rw [if_neg h]
      simp only [Bool.and_eq_true, Bool.not_eq_true', not_and] at h
      constructor
      · intro hmem
        have := (ih seen r).mp hmem
        exact ⟨List.mem_cons_of_mem _ this.1, this.2⟩
      · rintro ⟨hmem, hne, hns⟩
        rcases List.mem_cons.mp hmem with he | hmem'
        · subst he
          by_cases hisE : r.isEmpty = false
          · have hcontains := h hisE
            rw [Bool.not_eq_false] at hcontains
            exact absurd (List.elem_iff.mp hcontains) hns
          · simp at hisE
            exact absurd hisE hne
        · exact (ih seen r).mpr ⟨hmem', hne, hns⟩

theorem filteredResultsAux_nodup : ∀ (rs seen : List (List Char)),
    (filteredResultsAux seen rs).Nodup := by
  intro rs
  induction rs with
  | nil => intro seen; simp [filteredResultsAux]
  | cons r0 rest ih =>
    intro seen
    simp only [filteredResultsAux]
    by_cases h : !r0.isEmpty && !(seen.contains r0)
    · rw [if_pos h]
      apply List.Nodup.cons
      · intro hmem
        have := (filteredResultsAux_mem rest (r0 :: seen) r0).mp hmem
        exact this.2.2 (List.mem_cons_self _ _)
      · exact ih (r0 :: seen)
    · rw [if_neg h]
      exact ih seen

/-! ### Small helper lemmas -/

theorem alookup_isSome_iff {α β : Type} [DecidableEq α] {k : α} :
    ∀ {l : List (α × β)}, (alookup k l).isSome = true ↔ k ∈ l.map Prod.fst := by
  intro l
  induction l with
  | nil => simp [alookup]
  | cons e rest ih =>
    obtain ⟨k0, v0⟩ := e
    by_cases hk : k = k0
    · subst hk
      simp [alookup]
    · simp only [alookup, if_neg hk, List.map_cons, List.mem_cons]
      rw [ih]
      simp [hk]

theorem dropWhile_eq_self_of_all {α : Type} {p : α → Bool} {l : List α}
    (h : ∀ c ∈ l, p c = false) : l.dropWhile p = l := by
  cases l with
  | nil => rfl
  | cons a t => simp [List.dropWhile_cons, h a (List.mem_cons_self _ _)]

theorem pyStrip_eq_self_of_all {s : List Char}
    (h : ∀ c ∈ s, isPyWs c = false) : pyStrip s = s := by
  unfold pyStrip
  rw [dropWhile_eq_self_of_all h,
    dropWhile_eq_self_of_all (fun c hc => h c (List.mem_reverse.mp hc)),
    List.reverse_reverse]

theorem trimSpaces_subset {c : Char} {s : List Char}
    (h : c ∈ trimSpaces s) : c ∈ s := by
  unfold trimSpaces at h
  rw [List.mem_reverse] at h
  have h1 := (List.dropWhile_sublist _).subset h
  rw [List.mem_reverse] at h1
  exact (List.dropWhile_sublist _).subset h1

theorem mem_trim_or_space {c : Char} {s : List Char} (h : c ∈ s) :
    c ∈ trimSpaces s ∨ c = ' ' := by
  set p : Char → Bool := fun c => c = ' ' with hp
  rw [← List.takeWhile_append_dropWhile (p := p) (l := s)] at h
  rcases List.mem_append.mp h with h1 | h1
  · right
    have := List.mem_takeWhile_imp h1
    simpa [hp] using this
  · set d := s.dropWhile p with hd
    rw [← List.mem_reverse,
      ← List.takeWhile_append_dropWhile (p := p) (l := d.reverse)] at h1
    rcases List.mem_append.mp h1 with h2 | h2
    · right
      have := List.mem_takeWhile_imp h2
      simpa [hp] using this
    · left
      unfold trimSpaces
      rw [List.mem_reverse]
      exact h2

/-! ### Claim theorems -/

/-- C1: for a non-empty unspaced dot/dash input, `decode` returns exactly
the candidate strings arising from segmentations of the input into
registered patterns (one candidate per segmentation, and all of them);
in particular decoding `"...---..."` yields `"SOS"` among more than one
result.  The unspaced decoder itself is modelled from the spec since its
body is absent from the sources. -/
theorem c1_unspaced_decode_enumerates_segmentations :
    (∀ s : List Char, s ≠ [] → (∀ c ∈ s, c = '.' ∨ c = '-') →
      ∀ r, r ∈ morse_to_english s ↔
        ∃ parts, IsSegmentation parts s ∧ r = parts.map patChar) ∧
    "SOS".data ∈ morse_to_english ("...---...".data) ∧
    1 < (morse_to_english ("...---...".data)).length := by
  refine ⟨?_, by decide, by decide⟩
  intro s hne hchars r
  have hnw : pyStrip s = s := by
    apply pyStrip_eq_self_of_all
    intro c hc
    rcases hchars c hc with h | h <;> subst h <;> decide
  have hsp : ' ' ∉ pyStrip s := by
    rw [hnw]
    intro hmem
    rcases hchars ' ' hmem with h | h <;> simp at h
  rw [mtoe_ambig s (by rw [hnw]; exact hne) hsp, hnw]
  exact mem_fam s r

/-- C1 witness: the characterization instantiated on the SOS input. -/
theorem c1_witness :
    "SOS".data ∈ morse_to_english ("...---...".data) ↔
      ∃ parts, IsSegmentation parts ("...---...".data) ∧
        "SOS".data = parts.map patChar :=
  c1_unspaced_decode_enumerates_segmentations.1 ("...---...".data)
    (by decide) (by decide) ("SOS".data)

/-- C2: on delimited input (stripped form contains a space) `decode`
returns at most one result: exactly the fold of the tokens when every
token resolves (the token `"/"` resolving to a space through the reverse
table), and nothing when some token is unrecognized. -/
theorem c2_delimited_decode_at_most_one :
    ∀ s : List Char, ' ' ∈ pyStrip s →
      (morse_to_english s).length ≤ 1 ∧
      ((∀ u ∈ unitsOf (pyStrip s),
          (alookup u REVERSE_MORSE_DICT).isSome = true) →
        morse_to_english s = [(unitsOf (pyStrip s)).map patChar]) ∧
      ((∃ u ∈ unitsOf (pyStrip s), alookup u REVERSE_MORSE_DICT = none) →
        morse_to_english s = []) ∧
      alookup ("/".data) REVERSE_MORSE_DICT = some ' ' := by
  intro s h
  rw [mtoe_delim s h]
  refine ⟨fat_length_le _, ?_, ?_, by decide⟩
  · intro hall
    rw [fat_fold, if_pos (List.all_eq_true.mpr hall)]
  · rintro ⟨u, hu, hnone⟩
    rw [fat_fold, if_neg ?hcond]
    case hcond =>
      intro hall
      have := List.all_eq_true.mp hall u hu
      rw [hnone] at this
      simp at this

/-- C2 witness: decoding a concrete delimited string. -/
theorem c2_witness : morse_to_english (". .".data) = [['E', 'E']] :=
  ((c2_delimited_decode_at_most_one (". .".data) (by decide)).2.1
    (by decide)).trans (by decide)

/-- C4: decoding the empty string yields the singleton empty string;
a non-empty unspaced input with no segmentation into registered patterns
decodes to the empty collection, as does a delimited input with an
unrecognized token.  In this embedding `morse_to_english` is a total
function into lists, so failure is only ever the empty result list —
no exception is modelled because none can occur. -/
theorem c4_degenerate_inputs :
    morse_to_english [] = [[]] ∧
    (∀ s : List Char, s ≠ [] → ' ' ∉ pyStrip s →
      (¬ ∃ parts, IsSegmentation parts (pyStrip s)) →
      morse_to_english s = []) ∧
    (∀ s : List Char, ' ' ∈ pyStrip s →
      (∃ u ∈ unitsOf (pyStrip s), alookup u REVERSE_MORSE_DICT = none) →
      morse_to_english s = []) := by
  refine ⟨rfl, ?_, ?_⟩
  · intro s hne hsp hseg
    by_cases ht : pyStrip s = []
    · exact absurd ⟨[], by simp [IsSegmentation, ht]⟩ hseg
    · rw [mtoe_ambig s ht hsp]
      by_contra hnn
      rcases List.exists_mem_of_ne_nil _ hnn with ⟨r, hr⟩
      rcases (mem_fam _ r).mp hr with ⟨parts, hseg', _⟩
      exact hseg ⟨parts, hseg'⟩
  · intro s h hex
    rw [mtoe_delim s h, fat_fold, if_neg ?hcond]
    case hcond =>
      rcases hex with ⟨u, hu, hnone⟩
      intro hall
      have := List.all_eq_true.mp hall u hu
      rw [hnone] at this
      simp at this

/-- C4 witness: a non-empty input with no valid segmentation decodes to
the empty collection. -/
theorem c4_witness : morse_to_english ("x".data) = [] := by
  apply c4_degenerate_inputs.2.1 ("x".data) (by decide) (by decide)
  rintro ⟨parts, hseg⟩
  have hmem : parts.map patChar ∈ find_ambiguous_translations (pyStrip ("x".data)) :=
    (mem_fam _ _).mpr ⟨parts, hseg, rfl⟩
  rw [show find_ambiguous_translations (pyStrip ("x".data)) = [] from by decide] at hmem
  simp at hmem

/-- C5: the collection `decode` returns never contains duplicates (two
distinct segmentations always resolve to distinct strings, since the
table is injective), and the route-level filter that produces the
returned collection removes empties and repeats while keeping the first
occurrence in the original order (it is a duplicate-free sublist of its
input containing exactly the non-empty members). -/
theorem c5_stable_deduplication :
    (∀ s : List Char, (morse_to_english s).Nodup) ∧
    (∀ rs : List (List Char),
      (filtered_results rs).Nodup ∧
      (filtered_results rs).Sublist rs ∧
      ∀ r, r ∈ filtered_results rs ↔ r ∈ rs ∧ r ≠ []) := by
  refine ⟨mtoe_nodup, ?_⟩
  intro rs
  refine ⟨filteredResultsAux_nodup rs [], filteredResultsAux_sublist rs [], ?_⟩
  intro r
  unfold filtered_results
  rw [filteredResultsAux_mem]
  simp

/-- C5 witness: applied to a concrete ambiguous decode. -/
theorem c5_witness : (morse_to_english (".-".data)).Nodup :=
  c5_stable_deduplication.1 (".-".data)

/-- C6 counterexample: the table has 37 entries, not 42, and assigns no
pattern to any punctuation mark (e.g. the comma and the period are
absent). -/
theorem c6_counterexample :
    MORSE_CODE_DICT.length = 37 ∧ ¬ MORSE_CODE_DICT.length = 42 ∧
      alookup ',' MORSE_CODE_DICT = none ∧
      alookup '.' MORSE_CODE_DICT = none := by decide

/-- C6 (amended): the code table assigns a pattern to exactly the 37
symbols A–Z, 0–9 and the space character, and to no other symbol — it
contains no punctuation. -/
theorem c6_code_table_domain :
    MORSE_CODE_DICT.map Prod.fst =
      ['A', 'B', 'C', 'D', 'E', 'F', 'G', 'H', 'I', 'J', 'K', 'L', 'M',
       'N', 'O', 'P', 'Q', 'R', 'S', 'T', 'U', 'V', 'W', 'X', 'Y', 'Z',
       '1', '2', '3', '4', '5', '6', '7', '8', '9', '0', ' '] ∧
    MORSE_CODE_DICT.length = 37 ∧
    ∀ c : Char, (alookup c MORSE_CODE_DICT).isSome = true ↔
      c ∈ MORSE_CODE_DICT.map Prod.fst :=
  ⟨by decide, by decide, fun _ => alookup_isSome_iff⟩

/-- C6 witness: the domain characterization at a concrete symbol. -/
theorem c6_witness :
    (alookup 'A' MORSE_CODE_DICT).isSome = true ↔
      'A' ∈ MORSE_CODE_DICT.map Prod.fst :=
  c6_code_table_domain.2.2 'A'

/-- C7: the forward table is injective — its pattern column has no
duplicates — and the derived reverse table inverts every entry. -/
theorem c7_forward_table_injective :
    (MORSE_CODE_DICT.map Prod.snd).Nodup ∧
    ∀ e ∈ MORSE_CODE_DICT, alookup e.2 REVERSE_MORSE_DICT = some e.1 := by
  refine ⟨by decide, ?_⟩
  intro e he
  obtain ⟨c, p⟩ := e
  exact mem_alookup rev_keys_nodup (rev_mem_of_fwd_mem he)

/-- C7 witness: the reverse table inverts a concrete entry. -/
theorem c7_witness : alookup ("-...".data) REVERSE_MORSE_DICT = some 'B' :=
  c7_forward_table_injective.2 ('B', "-...".data) (by decide)

/-- C8: encoding `"HELLO WORLD"` gives exactly the expected delimited
string, and decoding that string gives exactly the singleton
`"HELLO WORLD"`. -/
theorem c8_hello_world_round_trip :
    english_to_morse ("HELLO WORLD".data) =
      ".... . .-.. .-.. --- / .-- --- .-. .-.. -..".data ∧
    morse_to_english (".... . .-.. .-.. --- / .-- --- .-. .-.. -..".data) =
      ["HELLO WORLD".data] := by
  exact ⟨by decide, by decide⟩

/-- C10: `validate_morse_code` accepts a string exactly when every
character of its space-trimmed form is a dot, dash, space or slash — a
purely lexical check — and the two concrete examples behave as stated. -/
theorem c10_validate_is_lexical :
    (∀ s : List Char, validate_morse_code s = true ↔
      ∀ c ∈ trimSpaces s, c = '.' ∨ c = '-' ∨ c = ' ' ∨ c = '/') ∧
    validate_morse_code ("abc".data) = false ∧
    validate_morse_code ("... --- ...".data) = true := by
  refine ⟨?_, by decide, by decide⟩
  intro s
  unfold validate_morse_code
  by_cases hs : s = []
  · subst hs
    simp [trimSpaces]
  · rw [if_neg hs, List.all_eq_true]
    constructor
    · intro h c hc
      have := h c (trimSpaces_subset hc)
      simp at this
      tauto
    · intro h c hc
      rcases mem_trim_or_space hc with h1 | h1
      · have := h c h1
        simp
        tauto
      · subst h1
        simp

/-- C10 witness: the lexical characterization at a concrete input. -/
theorem c10_witness :
    ∀ c ∈ trimSpaces ("  -- . ".data), c = '.' ∨ c = '-' ∨ c = ' ' ∨ c = '/' :=
  (c10_validate_is_lexical.1 ("  -- . ".data)).mp (by decide)

/-! ### Encoder output shape -/

theorem twoAdjSpaces_append {p l : List Char} (h : ' ' ∉ p) :
    twoAdjSpaces (p ++ l) = twoAdjSpaces l := by
  induction p with
  | nil => rfl
  | cons a p' ih =>
    have ha : a ≠ ' ' := by
      intro he; subst he; exact h (List.mem_cons_self _ _)
    have hp' : ' ' ∉ p' := fun hm => h (List.mem_cons_of_mem _ hm)
    rw [List.cons_append]
    cases hq : p' ++ l with
    | nil =>
      have hl : l = [] := by
        rcases List.append_eq_nil.mp hq with ⟨_, h2⟩
        exact h2
      subst hl
      rfl
    | cons b t =>
      show ((a == ' ' && b == ' ') || twoAdjSpaces (b :: t)) = twoAdjSpaces l
      have : (a == ' ') = false := by
        simp [ha]
      rw [this, Bool.false_and, Bool.false_or, ← hq]
      exact ih hp'

theorem twoAdjSpaces_of_not_mem {p : List Char} (h : ' ' ∉ p) :
    twoAdjSpaces p = false := by
  have := twoAdjSpaces_append (l := []) h
  simpa using this

theorem joinSep_head_cons (c0 : Char) (q' : List Char)
    (rest : List (List Char)) :
    ∃ t, joinSep ((c0 :: q') :: rest) = c0 :: t := by
  cases rest with
  | nil => exact ⟨q', rfl⟩
  | cons r rs => exact ⟨q' ++ ' ' :: joinSep (r :: rs), rfl⟩

theorem twoAdjSpaces_joinSep : ∀ pats : List (List Char),
    (∀ p ∈ pats, p ≠ [] ∧ ' ' ∉ p) → twoAdjSpaces (joinSep pats) = false := by
  intro pats
  induction pats with
  | nil => intro _; rfl
  | cons p rest ih =>
    intro h
    cases rest with
    | nil => exact twoAdjSpaces_of_not_mem (h p (List.mem_cons_self _ _)).2
    | cons q rest' =>
      rw [joinSep_cons2, twoAdjSpaces_append (h p (List.mem_cons_self _ _)).2]
      have hq := h q (List.mem_cons_of_mem _ (List.mem_cons_self _ _))
      obtain ⟨c0, q', hq'⟩ := List.exists_cons_of_ne_nil hq.1
      subst hq'
      obtain ⟨t, ht⟩ := joinSep_head_cons c0 q' rest'
      rw [ht]
      show ((' ' == ' ' && c0 == ' ') || twoAdjSpaces (c0 :: t)) = false
      have hc0 : (c0 == ' ') = false := by
        have : c0 ≠ ' ' := by
          intro he; subst he; exact hq.2 (List.mem_cons_self _ _)
        simp [this]
      rw [hc0, Bool.and_false, Bool.false_or, ← ht]
      exact ih (fun r hr => h r (List.mem_cons_of_mem _ hr))

theorem joinSep_ne_nil : ∀ pats : List (List Char),
    (∀ p ∈ pats, p ≠ []) → pats ≠ [] → joinSep pats ≠ [] := by
  intro pats h hne
  cases pats with
  | nil => exact absurd rfl hne
  | cons p rest =>
    cases rest with
    | nil => exact h p (List.mem_cons_self _ _)
    | cons q rest' =>
      rw [joinSep_cons2]
      cases p with
      | nil => simp
      | cons a p' => simp

theorem getLast?_joinSep : ∀ pats : List (List Char),
    (∀ p ∈ pats, p ≠ []) → pats ≠ [] →
    ∃ q ∈ pats, (joinSep pats).getLast? = q.getLast? := by
  intro pats
  induction pats with
  | nil => intro _ hne; exact absurd rfl hne
  | cons p rest ih =>
    intro h hne
    cases rest with
    | nil => exact ⟨p, List.mem_cons_self _ _, rfl⟩
    | cons q rest' =>
      have hrest : ∀ r ∈ q :: rest', r ≠ [] :=
        fun r hr => h r (List.mem_cons_of_mem _ hr)
      have hjne : joinSep (q :: rest') ≠ [] :=
        joinSep_ne_nil _ hrest (by simp)
      obtain ⟨q0, hq0, he⟩ := ih hrest (by simp)
      refine ⟨q0, List.mem_cons_of_mem _ hq0, ?_⟩
      rw [joinSep_cons2,
        List.getLast?_append_of_ne_nil _ (by simp : ' ' :: joinSep (q :: rest') ≠ []),
        show (' ' :: joinSep (q :: rest') : List Char) = [' '] ++ joinSep (q :: rest') from rfl,
        List.getLast?_append_of_ne_nil _ hjne, he]

/-- Every pattern produced by a forward lookup is non-empty, space-free
and whitespace-free. -/
theorem pats_props {t : List Char} {p : List Char}
    (h : p ∈ t.filterMap (fun c => alookup c MORSE_CODE_DICT)) :
    p ≠ [] ∧ ' ' ∉ p ∧ ∀ c ∈ p, isPyWs c = false := by
  rcases List.mem_filterMap.mp h with ⟨c, _, hc⟩
  have := fwd_entries_props _ (alookup_mem hc)
  exact this

/-- C9: the empty input encodes to the empty output; dropped characters
never leave a double space or a trailing space in the encoder's output;
and dropping the unsupported characters of the normalized input before
translating changes nothing — they are silently ignored. -/
theorem c9_encode_no_stray_separators :
    english_to_morse [] = [] ∧
    (∀ s : List Char, twoAdjSpaces (english_to_morse s) = false) ∧
    (∀ s : List Char, (english_to_morse s).getLast? ≠ some ' ') ∧
    (∀ t : List Char,
      (t.filter (fun c => (alookup c MORSE_CODE_DICT).isSome)).filterMap
          (fun c => alookup c MORSE_CODE_DICT) =
        t.filterMap (fun c => alookup c MORSE_CODE_DICT)) := by
  refine ⟨rfl, ?_, ?_, ?_⟩
  · intro s
    by_cases hs : s = []
    · subst hs; rfl
    · unfold english_to_morse
      rw [if_neg hs]
      apply twoAdjSpaces_joinSep
      intro p hp
      exact ⟨(pats_props hp).1, (pats_props hp).2.1⟩
  · intro s
    by_cases hs : s = []
    · subst hs; simp [english_to_morse]
    · unfold english_to_morse
      rw [if_neg hs]
      set pats := (pyStrip (s.map upperChar)).filterMap
        (fun c => alookup c MORSE_CODE_DICT) with hpats
      by_cases hne : pats = []
      · rw [hne]; simp [joinSep]
      · obtain ⟨q, hq, he⟩ := getLast?_joinSep pats
          (fun p hp => (pats_props (hpats ▸ hp)).1) hne
        rw [he]
        intro hlast
        have : ' ' ∈ q := List.mem_of_mem_getLast? hlast
        exact (pats_props (hpats ▸ hq)).2.1 this
  · intro t
    induction t with
    | nil => rfl
    | cons c rest ih =>
      cases hh : alookup c MORSE_CODE_DICT with
      | none => simp [List.filter_cons, List.filterMap_cons, hh, ih]
      | some p => simp [List.filter_cons, List.filterMap_cons, hh, ih]

/-- C9 witness: no double or trailing space on a concrete input with
dropped characters between and after supported ones. -/
theorem c9_witness :
    twoAdjSpaces (english_to_morse ("a! b?".data)) = false ∧
    (english_to_morse ("ab!".data)).getLast? ≠ some ' ' :=
  ⟨c9_encode_no_stray_separators.2.1 ("a! b?".data),
   c9_encode_no_stray_separators.2.2.1 ("ab!".data)⟩

/-! ### Round-trip infrastructure -/

theorem lower_table_props : ∀ e ∈ lowerUpperTable,
    isPyWs e.1 = false ∧ isPyWs e.2 = false := by decide

/-- Uppercasing does not change whether a character is whitespace. -/
theorem upper_ws (c : Char) : isPyWs (upperChar c) = isPyWs c := by
  unfold upperChar
  cases hh : alookup c lowerUpperTable with
  | none => rfl
  | some u =>
    have := lower_table_props _ (alookup_mem hh)
    simp only [Option.getD_some]
    rw [this.2, this.1]

/-- Stripping fixes a list whose two ends are not whitespace. -/
theorem pyStrip_eq_self_ends {l : List Char}
    (h1 : ∀ c, l.head? = some c → isPyWs c = false)
    (h2 : ∀ c, l.getLast? = some c → isPyWs c = false) : pyStrip l = l := by
  unfold pyStrip
  have e1 : l.dropWhile isPyWs = l := by
    cases l with
    | nil => rfl
    | cons a t => simp [List.dropWhile_cons, h1 a rfl]
  rw [e1]
  have e2 : l.reverse.dropWhile isPyWs = l.reverse := by
    cases hr : l.reverse with
    | nil => rfl
    | cons a t =>
      have : l.getLast? = some a := by
        rw [← List.head?_reverse, hr]; rfl
      rw [← hr]
      cases hl : l.reverse with
      | nil => rfl
      | cons b u =>
        rw [hl] at hr
        have hab : b = a := by
          have := List.cons.injEq .. ▸ hr
          exact this.1
        subst hab
        simp [List.dropWhile_cons, h2 b this]
  rw [e2, List.reverse_reverse]

/-- If stripping fixes a list, its first character is not whitespace. -/
theorem strip_fixed_head {s : List Char} (h : pyStrip s = s) :
    ∀ c, s.head? = some c → isPyWs c = false := by
  intro c hc
  by_contra hws
  rw [Bool.not_eq_false] at hws
  obtain ⟨t, rfl⟩ : ∃ t, s = c :: t := by
    cases s with
    | nil => simp at hc
    | cons a t =>
      simp at hc
      exact ⟨t, by rw [hc]⟩
  have h1 : (pyStrip (c :: t)).length ≤ t.length := by
    unfold pyStrip
    rw [List.dropWhile_cons, if_pos hws]
    calc ((t.dropWhile isPyWs).reverse.dropWhile isPyWs).reverse.length
        = ((t.dropWhile isPyWs).reverse.dropWhile isPyWs).length := by simp
      _ ≤ (t.dropWhile isPyWs).reverse.length :=
          (List.dropWhile_suffix _).length_le
      _ = (t.dropWhile isPyWs).length := by simp
      _ ≤ t.length := (List.dropWhile_suffix _).length_le
  rw [h] at h1
  simp only [List.length_cons] at h1
  omega

/-- If stripping fixes a list, its last character is not whitespace. -/
theorem strip_fixed_last {s : List Char} (h : pyStrip s = s) :
    ∀ c, s.getLast? = some c → isPyWs c = false := by
  intro c hc
  by_contra hws
  rw [Bool.not_eq_false] at hws
  have hlen : (pyStrip s).length = s.length := by rw [h]
  have houter_le : (pyStrip s).length ≤ (s.dropWhile isPyWs).length := by
    unfold pyStrip
    calc ((s.dropWhile isPyWs).reverse.dropWhile isPyWs).reverse.length
        = ((s.dropWhile isPyWs).reverse.dropWhile isPyWs).length := by simp
      _ ≤ (s.dropWhile isPyWs).reverse.length :=
          (List.dropWhile_suffix _).length_le
      _ = (s.dropWhile isPyWs).length := by simp
  have hinner_le : (s.dropWhile isPyWs).length ≤ s.length :=
    (List.dropWhile_suffix _).length_le
  have hinner_eq : s.dropWhile isPyWs = s :=
    (List.dropWhile_suffix _).eq_of_length (by omega)
  have h2 : pyStrip s = (s.reverse.dropWhile isPyWs).reverse := by
    unfold pyStrip
    rw [hinner_eq]
  obtain ⟨t, ht⟩ : ∃ t, s.reverse = c :: t := by
    have hh : s.reverse.head? = some c := by
      rw [List.head?_reverse]; exact hc
    cases hr : s.reverse with
    | nil => rw [hr] at hh; simp at hh
    | cons a t =>
      rw [hr] at hh
      simp at hh
      exact ⟨t, by rw [hh]⟩
  have h3 : (s.reverse.dropWhile isPyWs).length ≤ t.length := by
    rw [ht, List.dropWhile_cons, if_pos hws]
    exact (List.dropWhile_suffix _).length_le
  have h4 : s.length = t.length + 1 := by
    have := congrArg List.length ht
    simp at this
    omega
  rw [h2] at hlen
  simp at hlen
  omega

theorem filterMap_eq_map_fwd : ∀ u : List Char,
    (∀ c ∈ u, (alookup c MORSE_CODE_DICT).isSome = true) →
    u.filterMap (fun c => alookup c MORSE_CODE_DICT) = u.map fwdPat := by
  intro u
  induction u with
  | nil => intro _; rfl
  | cons c rest ih =>
    intro h
    rcases Option.isSome_iff_exists.mp (h c (List.mem_cons_self _ _)) with ⟨p, hp⟩
    rw [List.filterMap_cons, List.map_cons, hp]
    rw [ih (fun d hd => h d (List.mem_cons_of_mem _ hd))]
    simp [fwdPat, hp]

theorem fwdPat_props {c : Char}
    (h : (alookup c MORSE_CODE_DICT).isSome = true) :
    fwdPat c ≠ [] ∧ ' ' ∉ fwdPat c ∧ (∀ d ∈ fwdPat c, isPyWs d = false) ∧
      alookup (fwdPat c) REVERSE_MORSE_DICT = some c ∧
      patChar (fwdPat c) = c := by
  rcases Option.isSome_iff_exists.mp h with ⟨p, hp⟩
  have hfp : fwdPat c = p := by simp [fwdPat, hp]
  have hprops := fwd_entries_props _ (alookup_mem hp)
  have hrev := rev_of_fwd hp
  rw [hfp]
  exact ⟨hprops.1, hprops.2.1, hprops.2.2, hrev, by simp [patChar, hrev]⟩

/-! ### Splitting the encoder's output recovers the patterns -/

theorem splitSp_no_space : ∀ p : List Char, ' ' ∉ p → splitSp p = [p] := by
  intro p
  induction p with
  | nil => intro _; rfl
  | cons c rest ih =>
    intro h
    have hc : c ≠ ' ' := by
      intro he; subst he; exact h (List.mem_cons_self _ _)
    simp only [splitSp, if_neg hc,
      ih (fun hm => h (List.mem_cons_of_mem _ hm))]

theorem splitSp_append_space : ∀ p t : List Char, ' ' ∉ p →
    splitSp (p ++ ' ' :: t) = p :: splitSp t := by
  intro p
  induction p with
  | nil =>
    intro t _
    simp [splitSp]
  | cons c p' ih =>
    intro t h
    have hc : c ≠ ' ' := by
      intro he; subst he; exact h (List.mem_cons_self _ _)
    rw [List.cons_append]
    simp only [splitSp, if_neg hc,
      ih t (fun hm => h (List.mem_cons_of_mem _ hm))]

theorem splitSp_joinSep : ∀ pats : List (List Char),
    (∀ p ∈ pats, p ≠ [] ∧ ' ' ∉ p) → pats ≠ [] →
    splitSp (joinSep pats) = pats := by
  intro pats
  induction pats with
  | nil => intro _ hne; exact absurd rfl hne
  | cons p rest ih =>
    intro h _
    cases rest with
    | nil => exact splitSp_no_space p (h p (List.mem_cons_self _ _)).2
    | cons q rest' =>
      rw [joinSep_cons2,
        splitSp_append_space p _ (h p (List.mem_cons_self _ _)).2,
        ih (fun r hr => h r (List.mem_cons_of_mem _ hr)) (by simp)]

theorem unitsOf_joinSep (pats : List (List Char))
    (h : ∀ p ∈ pats, p ≠ [] ∧ ' ' ∉ p) (hne : pats ≠ []) :
    unitsOf (joinSep pats) = pats := by
  unfold unitsOf
  rw [splitSp_joinSep pats h hne]
  apply List.filter_eq_self.mpr
  intro p hp
  have := (h p hp).1
  simp [List.isEmpty_iff, this]

theorem head?_joinSep (p : List Char) (ps : List (List Char)) (h : p ≠ []) :
    (joinSep (p :: ps)).head? = p.head? := by
  cases ps with
  | nil => rfl
  | cons q qs =>
    rw [joinSep_cons2]
    exact List.head?_append_of_ne_nil _ h

/-- C3 counterexample: the space character is in the code table, yet
`decode(encode(" "))` is `{""}` and does not contain `" ".upper() = " "`,
because the encoder strips its input. -/
theorem c3_counterexample :
    (alookup (upperChar ' ') MORSE_CODE_DICT).isSome = true ∧
    [' '].map upperChar ∉ morse_to_english (english_to_morse [' ']) := by
  decide

/-- C3 (amended): for every string of supported characters with no
leading or trailing whitespace (stripping fixes it), decoding its
encoding yields a collection containing its uppercased form. -/
theorem c3_round_trip :
    ∀ s : List Char,
      (∀ c ∈ s, (alookup (upperChar c) MORSE_CODE_DICT).isSome = true) →
      pyStrip s = s →
      s.map upperChar ∈ morse_to_english (english_to_morse s) := by
  intro s hsupp hfix
  by_cases hnil : s = []
  · subst hnil; decide
  have hsuppu : ∀ c ∈ s.map upperChar,
      (alookup c MORSE_CODE_DICT).isSome = true := by
    intro c hc
    rcases List.mem_map.mp hc with ⟨a, ha, he⟩
    rw [← he]
    exact hsupp a ha
  have hufix : pyStrip (s.map upperChar) = s.map upperChar := by
    apply pyStrip_eq_self_ends
    · intro c hc
      rw [List.head?_map] at hc
      cases hh : s.head? with
      | none => rw [hh] at hc; simp at hc
      | some a =>
        rw [hh] at hc
        simp at hc
        rw [← hc, upper_ws]
        exact strip_fixed_head hfix a hh
    · intro c hc
      rw [List.getLast?_map] at hc
      cases hh : s.getLast? with
      | none => rw [hh] at hc; simp at hc
      | some a =>
        rw [hh] at hc
        simp at hc
        rw [← hc, upper_ws]
        exact strip_fixed_last hfix a hh
  have henc : english_to_morse s = joinSep ((s.map upperChar).map fwdPat) := by
    unfold english_to_morse
    rw [if_neg hnil, hufix, filterMap_eq_map_fwd _ hsuppu]
  have hpp : ∀ p ∈ (s.map upperChar).map fwdPat, p ≠ [] ∧ ' ' ∉ p ∧
      (∀ d ∈ p, isPyWs d = false) ∧
      (alookup p REVERSE_MORSE_DICT).isSome = true := by
    intro p hp
    rcases List.mem_map.mp hp with ⟨c, hc, he⟩
    have hprops := fwdPat_props (hsuppu c hc)
    rw [← he]
    refine ⟨hprops.1, hprops.2.1, hprops.2.2.1, ?_⟩
    rw [hprops.2.2.2.1]
    rfl
  have hmapchar : ((s.map upperChar).map fwdPat).map patChar =
      s.map upperChar := by
    rw [List.map_map]
    have hcong : ∀ c ∈ s.map upperChar, (patChar ∘ fwdPat) c = id c := by
      intro c hc
      exact (fwdPat_props (hsuppu c hc)).2.2.2.2
    rw [List.map_congr_left hcong]
    simp
  cases s with
  | nil => exact absurd rfl hnil
  | cons c1 s' =>
    cases s' with
    | nil =>
      rw [henc]
      simp only [List.map_cons, List.map_nil]
      rw [joinSep_single]
      have hsupp1 : (alookup (upperChar c1) MORSE_CODE_DICT).isSome = true :=
        hsupp c1 (List.mem_cons_self _ _)
      have hprops := fwdPat_props hsupp1
      have hpfix : pyStrip (fwdPat (upperChar c1)) = fwdPat (upperChar c1) :=
        pyStrip_eq_self_of_all hprops.2.2.1
      have hne : fwdPat (upperChar c1) ≠ [] := hprops.1
      have hnsp : ' ' ∉ pyStrip (fwdPat (upperChar c1)) := by
        rw [hpfix]
        exact hprops.2.1
      rw [mtoe_ambig _ (by rw [hpfix]; exact hne) hnsp, hpfix]
      apply (mem_fam _ _).mpr
      refine ⟨[fwdPat (upperChar c1)], ⟨by simp, ?_⟩, ?_⟩
      · intro q hq
        rcases List.mem_cons.mp hq with he | he
        · subst he
          refine ⟨hne, ?_⟩
          rw [hprops.2.2.2.1]
          rfl
        · simp at he
      · simp only [List.map_cons, List.map_nil]
        rw [hprops.2.2.2.2]
    | cons c2 s'' =>
      rw [henc]
      simp only [List.map_cons]
      have hpats : ∀ p ∈ (fwdPat (upperChar c1) :: fwdPat (upperChar c2) ::
          ((s''.map upperChar).map fwdPat)), p ≠ [] ∧ ' ' ∉ p ∧
          (∀ d ∈ p, isPyWs d = false) ∧
          (alookup p REVERSE_MORSE_DICT).isSome = true := by
        intro p hp
        apply hpp
        simpa using hp
      have hspm : ' ' ∈ joinSep (fwdPat (upperChar c1) :: fwdPat (upperChar c2) ::
          ((s''.map upperChar).map fwdPat)) := space_mem_joinSep _ _ _
      have hfixenc : pyStrip (joinSep (fwdPat (upperChar c1) ::
          fwdPat (upperChar c2) :: ((s''.map upperChar).map fwdPat))) =
          joinSep (fwdPat (upperChar c1) :: fwdPat (upperChar c2) ::
          ((s''.map upperChar).map fwdPat)) := by
        apply pyStrip_eq_self_ends
        · intro c hc
          rw [head?_joinSep _ _ (hpats _ (List.mem_cons_self _ _)).1] at hc
          exact (hpats _ (List.mem_cons_self _ _)).2.2.1 c
            (List.mem_of_mem_head? hc)
        · intro c hc
          obtain ⟨q, hq, he⟩ := getLast?_joinSep _
            (fun p hp => (hpats p hp).1) (by simp)
          rw [he] at hc
          exact (hpats q hq).2.2.1 c (List.mem_of_mem_getLast? hc)
      rw [mtoe_delim _ (by rw [hfixenc]; exact hspm), hfixenc,
        unitsOf_joinSep _ (fun p hp => ⟨(hpats p hp).1, (hpats p hp).2.1⟩)
          (by simp),
        fat_fold, if_pos (List.all_eq_true.mpr
          (fun u hu => (hpats u hu).2.2.2))]
      simp only [List.map_cons] at hmapchar ⊢
      rw [hmapchar]
      simp

/-- C3 witness: the amended round trip at a concrete supported string. -/
theorem c3_witness :
    ("ab".data).map upperChar ∈ morse_to_english (english_to_morse ("ab".data)) :=
  c3_round_trip ("ab".data) (by decide) (by decide)
